import Mathlib

/-!
Shallow embedding of the Grain LFSR in self-shrinking mode from
src/gadget/poseidon/grain.rs, together with theorems settling the
specification claims about it.

The Rust state is an 80-bit array (bitvec, Msb0 order) indexed logically by
bit position; we model it as a plain List Bool indexed with List.getD.
The bitvec call rotate_right(8) moves the last 8 bits to the front, i.e. it
sends the bit at logical index i to index (i + 8) mod 80; on a list of
length L this is List.rotate (L - 8) (a left rotation by L - 8).
Machine integers (u8 / u16 / usize) are modelled as Nat: every shift and
mask the source performs stays far below the respective width, and usize
subtraction is modelled with truncated Nat subtraction (the safety claim
shows the subtraction never underflows on reachable states).
-/

namespace GrainLFSR

abbrev STATE : Nat := 80

inductive FieldType where
  | Binary
  | PrimeOrder
deriving DecidableEq

def FieldType.tag : FieldType → Nat
  | .Binary => 0
  | .PrimeOrder => 1

inductive SboxType where
  | Pow
  | Inv
deriving DecidableEq

def SboxType.tag : SboxType → Nat
  | .Pow => 0
  | .Inv => 1

structure Grain where
  state : List Bool
  next_bit : Nat
deriving DecidableEq

/-- The six-tap feedback bit for position i, exactly as the source computes it:
state[i+62] ^ state[i+51] ^ state[i+38] ^ state[i+23] ^ state[i+13] ^ state[i]. -/
def feedbackBit (s : List Bool) (i : Nat) : Bool :=
  (((((s.getD (i + 62) false).xor (s.getD (i + 51) false)).xor
            (s.getD (i + 38) false)).xor
          (s.getD (i + 23) false)).xor
        (s.getD (i + 13) false)).xor
    (s.getD i false)

/-- The u8 new_bits accumulator: new_bits |= (bit as u8) << i for i in 0..8. -/
def pack8 (f : Nat → Bool) : Nat :=
  (List.range 8).foldl (fun acc i => acc ||| ((if f i then 1 else 0) <<< i)) 0

/-- Models bitvec rotate_right on the 80-bit register: the last n bits move to
the front. -/
def rotRight (l : List Bool) (n : Nat) : List Bool :=
  l.rotate (l.length - n)

/-- Translation of Grain::load_next_8_bits. -/
def load_next_8_bits (g : Grain) : Grain :=
  let new_bits := pack8 (feedbackBit g.state)
  let rotated := rotRight g.state 8
  let written := (List.range 8).foldl
    (fun s i => s.set (i + STATE - 8) (((new_bits >>> i) &&& 1) != 0)) rotated
  { state := written, next_bit := g.next_bit - 8 }

/-- Translation of Grain::get_next_bit. -/
def get_next_bit (g : Grain) : Bool × Grain :=
  let g1 := if g.next_bit = STATE then load_next_8_bits g else g
  (g1.state.getD g1.next_bit false, { g1 with next_bit := g1.next_bit + 1 })

/-- The set_bits closure in Grain::new: for i in (0..len).rev(),
state[offset + i] = (value >> i) & 1 != 0. -/
def set_bits (st : List Bool) (offset len value : Nat) : List Bool :=
  (List.range len).reverse.foldl
    (fun s i => s.set (offset + i) (((value >>> i) &&& 1) != 0)) st

/-- The register as Grain::new leaves it right after seed encoding.
numBits stands for F::NUM_BITS of the field type parameter. -/
def initRegister (numBits : Nat) (sbox : SboxType) (t r_f r_p : Nat) : List Bool :=
  let st := List.replicate STATE true
  let st := set_bits st 0 2 FieldType.PrimeOrder.tag
  let st := set_bits st 2 4 sbox.tag
  let st := set_bits st 6 12 numBits
  let st := set_bits st 18 12 t
  let st := set_bits st 30 10 r_f
  let st := set_bits st 40 10 r_p
  st

/-- The Grain value as it stands between seed encoding and warm-up. -/
def seedGrain (numBits : Nat) (sbox : SboxType) (t r_f r_p : Nat) : Grain :=
  { state := initRegister numBits sbox t r_f r_p, next_bit := STATE }

/-- The warm-up loop of Grain::new: n rounds of load_next_8_bits followed by
resetting next_bit to STATE. -/
def warmup : Nat → Grain → Grain
  | 0, g => g
  | n + 1, g => warmup n { load_next_8_bits g with next_bit := STATE }

/-- Translation of Grain::new (numBits stands for F::NUM_BITS). -/
def Grain.new (numBits : Nat) (sbox : SboxType) (t r_f r_p : Nat) : Grain :=
  warmup 20 (seedGrain numBits sbox t r_f r_p)

/-- The register update claimed by the spec for one refill: the 8 oldest bits
(indices 0..8) are discarded, the remaining 72 bits keep their order, and the
8 freshly computed feedback bits enter at the most-recent window 72..80. -/
def refillClaimRegister (s : List Bool) : List Bool :=
  s.drop 8 ++ (List.range 8).map (feedbackBit s)

/-- The seed encoder claimed by the spec: each field is written with its most
significant bit at the lowest index of its slot. -/
def set_bits_msb (st : List Bool) (offset len value : Nat) : List Bool :=
  (List.range len).foldl
    (fun s i => s.set (offset + i) (((value >>> (len - 1 - i)) &&& 1) != 0)) st

/-- The construction-time register the spec describes, with every field slot
written most-significant-bit-first. -/
def initRegisterMsb (numBits : Nat) (sbox : SboxType) (t r_f r_p : Nat) : List Bool :=
  let st := List.replicate STATE true
  let st := set_bits_msb st 0 2 FieldType.PrimeOrder.tag
  let st := set_bits_msb st 2 4 sbox.tag
  let st := set_bits_msb st 6 12 numBits
  let st := set_bits_msb st 18 12 t
  let st := set_bits_msb st 30 10 r_f
  let st := set_bits_msb st 40 10 r_p
  st

/-! Helper lemmas about list indexing. -/

theorem getD_set_self {α : Type} {l : List α} {i : Nat} (a d : α) (h : i < l.length) :
    (l.set i a).getD i d = a := by
  simp [List.getD_eq_getElem?_getD, List.getElem?_set_self h]

theorem getD_set_other {α : Type} {l : List α} {i j : Nat} (a d : α) (h : i ≠ j) :
    (l.set i a).getD j d = l.getD j d := by
  simp [List.getD_eq_getElem?_getD, List.getElem?_set_ne h]

theorem testBit_ite01 (b : Bool) (m : Nat) :
    (if b then (1 : Nat) else 0).testBit m = (b && decide (m = 0)) := by
  cases b <;> cases m <;> simp [Nat.testBit_succ]

/-- Bit i of the packed new_bits byte, read back the way the source reads it,
is exactly the i-th feedback bit. -/
theorem pack8_bit (f : Nat → Bool) (i : Nat) (h : i < 8) :
    (((pack8 f >>> i) &&& 1) != 0) = f i := by
  have h1 : ((pack8 f >>> i) &&& 1) = (1 &&& (pack8 f >>> i)) := Nat.and_comm _ _
  rw [h1]
  show (pack8 f).testBit i = f i
  have h2 : List.range 8 = [0, 1, 2, 3, 4, 5, 6, 7] := rfl
  simp only [pack8, h2, List.foldl]
  simp only [Nat.testBit_or, Nat.testBit_shiftLeft, testBit_ite01, Nat.zero_testBit]
  interval_cases i <;> simp

/-- The register produced by one refill holds feedback bit i of the pre-update
window at index 72 + i. -/
theorem load_getD (g : Grain) (hlen : g.state.length = 80) (i : Nat) (hi : i < 8) :
    (load_next_8_bits g).state.getD (72 + i) false = feedbackBit g.state i := by
  have hrot : (rotRight g.state 8).length = 80 := by
    simp [rotRight, List.length_rotate, hlen]
  have h2 : List.range 8 = [0, 1, 2, 3, 4, 5, 6, 7] := rfl
  simp only [load_next_8_bits, h2, List.foldl]
  simp only [show (0 + STATE - 8 : Nat) = 72 from rfl, show (1 + STATE - 8 : Nat) = 73 from rfl,
    show (2 + STATE - 8 : Nat) = 74 from rfl, show (3 + STATE - 8 : Nat) = 75 from rfl,
    show (4 + STATE - 8 : Nat) = 76 from rfl, show (5 + STATE - 8 : Nat) = 77 from rfl,
    show (6 + STATE - 8 : Nat) = 78 from rfl, show (7 + STATE - 8 : Nat) = 79 from rfl]
  interval_cases i
  all_goals
    simp only [Nat.reduceAdd]
    repeat rw [getD_set_other _ _ (by decide)]
  all_goals
    rw [getD_set_self _ _ (by simp only [List.length_set, hrot]; omega)]
  all_goals
    exact pack8_bit _ _ (by omega)

/-- Claim C3: each refill computes its 8 new feedback bits from the current
(pre-update) window, bit i being the XOR of the window bits at indices
i + 0, i + 13, i + 23, i + 38, i + 51 and i + 62, and writes them at the
window positions 72..80 where consumption resumes. -/
theorem c3_feedback_taps (g : Grain) (i : Nat) (hlen : g.state.length = 80)
    (hi : i < 8) :
    (load_next_8_bits g).state.getD (72 + i) false =
      (((((g.state.getD (i + 0) false).xor (g.state.getD (i + 13) false)).xor
              (g.state.getD (i + 23) false)).xor
            (g.state.getD (i + 38) false)).xor
          (g.state.getD (i + 51) false)).xor
        (g.state.getD (i + 62) false) := by
  rw [load_getD g hlen i hi]
  simp only [feedbackBit, Nat.add_zero]
  generalize g.state.getD i false = x0
  generalize g.state.getD (i + 13) false = x13
  generalize g.state.getD (i + 23) false = x23
  generalize g.state.getD (i + 38) false = x38
  generalize g.state.getD (i + 51) false = x51
  generalize g.state.getD (i + 62) false = x62
  cases x0 <;> cases x13 <;> cases x23 <;> cases x38 <;> cases x51 <;> cases x62 <;> rfl

/-- Witness for C3 at the concrete state preceding the first warm-up refill. -/
theorem c3_feedback_taps_witness :
    (seedGrain 255 SboxType.Pow 3 8 56).state.length = 80 ∧ 0 < 8 ∧
    (load_next_8_bits (seedGrain 255 SboxType.Pow 3 8 56)).state.getD (72 + 0) false =
      ((((((seedGrain 255 SboxType.Pow 3 8 56).state.getD (0 + 0) false).xor
                  ((seedGrain 255 SboxType.Pow 3 8 56).state.getD (0 + 13) false)).xor
                ((seedGrain 255 SboxType.Pow 3 8 56).state.getD (0 + 23) false)).xor
              ((seedGrain 255 SboxType.Pow 3 8 56).state.getD (0 + 38) false)).xor
            ((seedGrain 255 SboxType.Pow 3 8 56).state.getD (0 + 51) false)).xor
        ((seedGrain 255 SboxType.Pow 3 8 56).state.getD (0 + 62) false) :=
  ⟨by decide, by decide,
    c3_feedback_taps (seedGrain 255 SboxType.Pow 3 8 56) 0 (by decide) (by decide)⟩

/-- Claim C1: load_next_8_bits does not discard the 8 oldest bits.  At the
(reachable) state right before the first warm-up refill of
Grain::new ::<Fp>(Pow, 3, 8, 56) (F::NUM_BITS = 255), the bit at index 0 of
the window survives the update at index 8 (the code rotates the register
right, discarding the bits at indices 64..72 instead), so the produced
register differs from the register the claim prescribes. -/
theorem c1_refill_discards_wrong_bits :
    (load_next_8_bits (seedGrain 255 SboxType.Pow 3 8 56)).state.getD 8 false = true ∧
    (refillClaimRegister (seedGrain 255 SboxType.Pow 3 8 56).state).getD 8 false = false ∧
    (load_next_8_bits (seedGrain 255 SboxType.Pow 3 8 56)).state ≠
      refillClaimRegister (seedGrain 255 SboxType.Pow 3 8 56).state := by
  decide

/-- Claim C2: the seed encoder writes each field least-significant-bit-first
within its slot, not most-significant-bit-first as the claim states: with the
test parameters (NUM_BITS = 255, Pow, t = 3, r_f = 8, r_p = 56) the bit at
index 0 (lowest index of the 2-bit field-kind slot holding value 1) is 1 in
the code register but 0 in the claimed register.  The remainder of the claim
(offsets, widths, bits 50..80 all ones) does hold. -/
theorem c2_seed_encoding_is_lsb_first :
    (initRegister 255 SboxType.Pow 3 8 56).getD 0 false = true ∧
    (initRegisterMsb 255 SboxType.Pow 3 8 56).getD 0 false = false ∧
    initRegister 255 SboxType.Pow 3 8 56 ≠ initRegisterMsb 255 SboxType.Pow 3 8 56 ∧
    (initRegister 255 SboxType.Pow 3 8 56).drop 50 = List.replicate 30 true := by
  decide

/-! The self-shrinking extractor (the Iterator::next implementation) and the
field sampler.  The Rust loops are unbounded; they are modelled with an
explicit fuel argument counting loop iterations, so that running out of fuel
is distinguishable (Option.none) from any real outcome of the code. -/

/-- Translation of the Iterator::next loop: read (control, candidate) pairs,
discard the candidate while control is 0, emit the first candidate whose
control bit is 1.  Fuel bounds the number of pairs read. -/
def nextDerived : Nat → Grain → Option (Bool × Grain)
  | 0, _ => none
  | fuel + 1, g =>
    if (get_next_bit g).1 then some (get_next_bit (get_next_bit g).2)
    else nextDerived fuel (get_next_bit (get_next_bit g).2).2

/-- State after j raw-bit pairs whose control bits are all 0 (none if a
control bit 1 shows up among the first j pairs). -/
def zeroPairRun : Nat → Grain → Option Grain
  | 0, g => some g
  | j + 1, g =>
    if (get_next_bit g).1 then none
    else zeroPairRun j (get_next_bit (get_next_bit g).2).2

/-- Claim C5: if the first j raw-bit pairs read from state g all carry control
bit 0 and the pair read next carries control bit 1, then producing one derived
bit from g emits exactly the candidate bit of that pair and leaves the
generator exactly at the state following that pair. -/
theorem c5_self_shrinking (j : Nat) (g gj : Grain) (hrun : zeroPairRun j g = some gj)
    (hctl : (get_next_bit gj).1 = true) (fuel : Nat) (hfuel : j < fuel) :
    nextDerived fuel g =
      some ((get_next_bit (get_next_bit gj).2).1, (get_next_bit (get_next_bit gj).2).2) := by
  induction j generalizing g fuel with
  | zero =>
    obtain ⟨f, rfl⟩ : ∃ f, fuel = f + 1 := ⟨fuel - 1, by omega⟩
    simp only [zeroPairRun, Option.some.injEq] at hrun
    subst hrun
    simp [nextDerived, hctl]
  | succ j ih =>
    obtain ⟨f, rfl⟩ : ∃ f, fuel = f + 1 := ⟨fuel - 1, by omega⟩
    simp only [zeroPairRun] at hrun
    by_cases hc : (get_next_bit g).1
    · simp [hc] at hrun
    · simp only [hc, if_false] at hrun
      simp only [nextDerived, hc, if_false]
      exact ih _ hrun f (by omega)

/-- Witness for C5: at the all-ones register with cursor 0 the very first pair
has control bit 1 and candidate bit 1. -/
theorem c5_self_shrinking_witness :
    zeroPairRun 0 { state := List.replicate 80 true, next_bit := 0 } =
      some { state := List.replicate 80 true, next_bit := 0 } ∧
    (get_next_bit { state := List.replicate 80 true, next_bit := 0 }).1 = true ∧
    0 < 1 ∧
    nextDerived 1 { state := List.replicate 80 true, next_bit := 0 } =
      some ((get_next_bit (get_next_bit
              { state := List.replicate 80 true, next_bit := 0 }).2).1,
            (get_next_bit (get_next_bit
              { state := List.replicate 80 true, next_bit := 0 }).2).2) :=
  ⟨by decide, by decide, by decide,
    c5_self_shrinking 0 _ _ (by decide) (by decide) 1 (by decide)⟩

/-- The capability contract next_field_element requires from the field type F:
its canonical bit-length (F::NUM_BITS), the byte size of its canonical
representation (F::Repr), and the canonical parser (F::from_repr), which
returns none exactly on byte patterns outside the canonical range. -/
structure FieldSpec where
  numBits : Nat
  reprLen : Nat
  from_repr : List Nat → Option Nat

/-- Drawing n derived bits (self.take(n) over the Iterator instance). -/
def takeBits (fuel : Nat) : Nat → Grain → Option (List Bool × Grain)
  | 0, g => some ([], g)
  | n + 1, g =>
    match nextDerived fuel g with
    | none => none
    | some (b, g1) =>
      match takeBits fuel n g1 with
      | none => none
      | some (bs, g2) => some (b :: bs, g2)

/-- The packing loop of next_field_element: bit number i of the drawn sequence
is OR-ed into bit i % 8 of byte i / 8 of the buffer. -/
def packBytesAux : Nat → List Bool → List Nat → List Nat
  | _, [], buf => buf
  | i, b :: bs, buf =>
    packBytesAux (i + 1) bs
      (buf.set (i / 8) ((buf.getD (i / 8) 0) ||| (if b then 1 <<< (i % 8) else 0)))

/-- The zero-initialized F::Repr buffer after the packing loop. -/
def packBytes (reprLen : Nat) (bits : List Bool) : List Nat :=
  packBytesAux 0 bits (List.replicate reprLen 0)

/-- Translation of Grain::next_field_element; the unbounded rejection loop is
bounded by an attempt counter (second Nat argument). -/
def next_field_element (F : FieldSpec) (fuel : Nat) : Nat → Grain → Option (Nat × Grain)
  | 0, _ => none
  | a + 1, g =>
    match takeBits fuel F.numBits g with
    | none => none
    | some (bits, g1) =>
      match F.from_repr (packBytes F.reprLen bits) with
      | some f => some (f, g1)
      | none => next_field_element F fuel a g1

/-- One rejection-sampling attempt: draw NUM_BITS derived bits, pack them and
parse; returns the parser verdict together with the advanced state. -/
def drawAttempt (F : FieldSpec) (fuel : Nat) (g : Grain) : Option (Option Nat × Grain) :=
  match takeBits fuel F.numBits g with
  | none => none
  | some (bits, g1) => some (F.from_repr (packBytes F.reprLen bits), g1)

/-- State after j attempts that were all rejected by from_repr. -/
def rejectRun (F : FieldSpec) (fuel : Nat) : Nat → Grain → Option Grain
  | 0, g => some g
  | j + 1, g =>
    match drawAttempt F fuel g with
    | some (none, g1) => rejectRun F fuel j g1
    | _ => none

theorem testBit_one (m : Nat) : (1 : Nat).testBit m = decide (m = 0) := by
  cases m <;> simp [Nat.testBit_succ]

theorem getD_replicate_zero (n i : Nat) : (List.replicate n (0 : Nat)).getD i 0 = 0 := by
  induction n generalizing i with
  | zero => rfl
  | succ n ih => cases i <;> simp [List.replicate, ih]

theorem takeBits_length (fuel : Nat) :
    ∀ (n : Nat) (g : Grain) (bits : List Bool) (g1 : Grain),
      takeBits fuel n g = some (bits, g1) → bits.length = n := by
  intro n
  induction n with
  | zero =>
    intro g bits g1 h
    simp only [takeBits, Option.some.injEq, Prod.mk.injEq] at h
    simp [← h.1]
  | succ n ih =>
    intro g bits g1 h
    simp only [takeBits] at h
    split at h
    · exact absurd h (by simp)
    · rename_i b gb hnd
      split at h
      · exact absurd h (by simp)
      · rename_i bs g2 htb
        simp only [Option.some.injEq, Prod.mk.injEq] at h
        rw [← h.1]
        simp [ih gb bs g2 htb]

/-- Writes performed by the packing loop from index j on leave every buffer
bit at a position strictly below j unchanged. -/
theorem packBytesAux_testBit_low (bs : List Bool) (p q : Nat) (_hq : q < 8) :
    ∀ (j : Nat) (buf : List Nat), 8 * p + q < j →
      ((packBytesAux j bs buf).getD p 0).testBit q = (buf.getD p 0).testBit q := by
  induction bs with
  | nil => intro j buf _; rfl
  | cons b bs ih =>
    intro j buf hlow
    simp only [packBytesAux]
    rw [ih (j + 1) _ (by omega)]
    by_cases hp : j / 8 = p
    · by_cases hlen : j / 8 < buf.length
      · rw [hp] at hlen ⊢
        rw [getD_set_self _ _ hlen]
        cases b
        · simp
        · have hqm : ¬(q ≥ j % 8) := by omega
          simp [Nat.testBit_or, Nat.testBit_shiftLeft, hqm]
      · rw [List.set_eq_of_length_le (by omega)]
    · rw [getD_set_other _ _ hp]

/-- The packing loop started at index i realizes the little-endian layout: the
k-th remaining bit lands in bit (i+k) % 8 of byte (i+k) / 8, provided that
buffer bit was still clear. -/
theorem packBytesAux_testBit (bits : List Bool) :
    ∀ (i : Nat) (buf : List Nat) (k : Nat), k < bits.length → (i + k) / 8 < buf.length →
      ((buf.getD ((i + k) / 8) 0).testBit ((i + k) % 8) = false) →
      ((packBytesAux i bits buf).getD ((i + k) / 8) 0).testBit ((i + k) % 8) =
        bits.getD k false := by
  induction bits with
  | nil => intro i buf k hk; simp at hk
  | cons b bs ih =>
    intro i buf k hk hp hbit
    simp only [packBytesAux]
    cases k with
    | zero =>
      simp only [Nat.add_zero] at hp hbit ⊢
      rw [packBytesAux_testBit_low bs (i / 8) (i % 8) (Nat.mod_lt _ (by omega)) (i + 1) _
        (by omega)]
      rw [getD_set_self _ _ hp, List.getD_cons_zero]
      cases b
      · simpa using hbit
      · simp only [if_pos trivial]
        rw [Nat.testBit_or, hbit, Bool.false_or, Nat.testBit_shiftLeft, testBit_one]
        simp
    | succ k' =>
      have harith : i + (k' + 1) = i + 1 + k' := by omega
      rw [harith] at hp hbit ⊢
      rw [List.getD_cons_succ]
      apply ih (i + 1) _ k' (by simpa using hk)
      · simpa [List.length_set] using hp
      · by_cases hpq : i / 8 = (i + 1 + k') / 8
        · rw [hpq, getD_set_self _ _ (hpq ▸ hp)]
          cases b
          · simpa using hbit
          · simp only [if_pos trivial]
            rw [Nat.testBit_or, hbit, Bool.false_or, Nat.testBit_shiftLeft, testBit_one]
            have h1 : (i + 1 + k') % 8 - i % 8 = k' + 1 := by omega
            have h2 : i % 8 ≤ (i + 1 + k') % 8 := by omega
            simp [h1, h2]
        · rw [getD_set_other _ _ hpq]
          exact hbit

/-- Bit k of the drawn sequence is stored at bit k % 8 of byte k / 8 of the
packed canonical buffer. -/
theorem packBytes_testBit (reprLen : Nat) (bits : List Bool) (k : Nat)
    (hk : k < bits.length) (hp : k / 8 < reprLen) :
    ((packBytes reprLen bits).getD (k / 8) 0).testBit (k % 8) = bits.getD k false := by
  have h := packBytesAux_testBit bits 0 (List.replicate reprLen 0) k hk
    (by simpa [List.length_replicate] using hp)
    (by rw [Nat.zero_add, getD_replicate_zero]; simp)
  simpa [packBytes, Nat.zero_add] using h

/-- The rejection loop returns the element of the first attempt accepted by
from_repr, after any number of rejected attempts, without surfacing an error. -/
theorem nfe_first_success (F : FieldSpec) (fuel : Nat) (j : Nat) :
    ∀ (g gj : Grain) (f : Nat) (gfin : Grain), rejectRun F fuel j g = some gj →
      drawAttempt F fuel gj = some (some f, gfin) →
      ∀ a, j < a → next_field_element F fuel a g = some (f, gfin) := by
  induction j with
  | zero =>
    intro g gj f gfin hrun hdraw a ha
    simp only [rejectRun, Option.some.injEq] at hrun
    subst hrun
    obtain ⟨a1, rfl⟩ : ∃ a1, a = a1 + 1 := ⟨a - 1, by omega⟩
    simp only [next_field_element]
    simp only [drawAttempt] at hdraw
    cases htb : takeBits fuel F.numBits g with
    | none => rw [htb] at hdraw; exact absurd hdraw (by simp)
    | some p =>
      obtain ⟨bits, g1⟩ := p
      rw [htb] at hdraw
      simp only [Option.some.injEq, Prod.mk.injEq] at hdraw
      simp [hdraw.1, hdraw.2]
  | succ j ih =>
    intro g gj f gfin hrun hdraw a ha
    simp only [rejectRun] at hrun
    cases hda : drawAttempt F fuel g with
    | none => rw [hda] at hrun; exact absurd hrun (by simp)
    | some p =>
      obtain ⟨o, g1⟩ := p
      rw [hda] at hrun
      cases o with
      | some f0 => exact absurd hrun (by simp)
      | none =>
        obtain ⟨a1, rfl⟩ : ∃ a1, a = a1 + 1 := ⟨a - 1, by omega⟩
        simp only [next_field_element]
        simp only [drawAttempt] at hda
        cases htb : takeBits fuel F.numBits g with
        | none => rw [htb] at hda; exact absurd hda (by simp)
        | some q =>
          obtain ⟨bits, g1x⟩ := q
          rw [htb] at hda
          simp only [Option.some.injEq, Prod.mk.injEq] at hda
          simp only [hda.1, hda.2]
          exact ih g1 gj f gfin hrun hdraw a1 (by omega)

/-- Claim C4: next_field_element draws exactly NUM_BITS derived bits per
attempt, packs them little-endian (drawn bit k sets bit k % 8 of byte k / 8 of
the zero-initialized canonical buffer), returns the element of the first
attempt from_repr accepts, retries from fresh draws on each rejection, and
surfaces no error: rejections only ever lead to another attempt. -/
theorem c4_field_sampler (F : FieldSpec) (fuel : Nat) (g : Grain) :
    (∀ n bits g1, takeBits fuel n g = some (bits, g1) → bits.length = n) ∧
    (∀ bits k, k < bits.length → k / 8 < F.reprLen →
      ((packBytes F.reprLen bits).getD (k / 8) 0).testBit (k % 8) = bits.getD k false) ∧
    (∀ j gj f gfin, rejectRun F fuel j g = some gj →
      drawAttempt F fuel gj = some (some f, gfin) →
      ∀ a, j < a → next_field_element F fuel a g = some (f, gfin)) :=
  ⟨fun n bits g1 h => takeBits_length fuel n g bits g1 h,
   fun bits k hk hp => packBytes_testBit F.reprLen bits k hk hp,
   fun j gj f gfin h1 h2 a ha => nfe_first_success F fuel j g gj f gfin h1 h2 a ha⟩

def wF : FieldSpec :=
  ⟨4, 1, fun bytes => if bytes.getD 0 0 < 16 then some (bytes.getD 0 0) else none⟩

def wG : Grain := ⟨List.replicate 80 true, 0⟩

def wG8 : Grain := ⟨List.replicate 80 true, 8⟩

/-- Witness for C4 at a concrete 4-bit field specification and the all-ones
register: every raw pair is (1, 1), so the four derived bits pack to byte 15,
which from_repr accepts on the first attempt. -/
theorem c4_field_sampler_witness :
    takeBits 1 4 wG = some ([true, true, true, true], wG8) ∧
    [true, true, true, true].length = 4 ∧
    (0 < [true, true, true, true].length ∧ 0 / 8 < wF.reprLen) ∧
    ((packBytes wF.reprLen [true, true, true, true]).getD (0 / 8) 0).testBit (0 % 8) =
      [true, true, true, true].getD 0 false ∧
    rejectRun wF 1 0 wG = some wG ∧
    drawAttempt wF 1 wG = some (some 15, wG8) ∧
    0 < 1 ∧
    next_field_element wF 1 1 wG = some (15, wG8) :=
  ⟨by decide,
   (c4_field_sampler wF 1 wG).1 4 [true, true, true, true] wG8 (by decide),
   ⟨by decide, by decide⟩,
   (c4_field_sampler wF 1 wG).2.1 [true, true, true, true] 0 (by decide) (by decide),
   by decide,
   by decide,
   by decide,
   (c4_field_sampler wF 1 wG).2.2 0 wG 15 wG8 (by decide) (by decide) 1 (by decide)⟩

/-! Characterization of the seed-encoding loop. -/

theorem set_bits_succ (st : List Bool) (o len v : Nat) :
    set_bits st o (len + 1) v =
      set_bits (st.set (o + len) (((v >>> len) &&& 1) != 0)) o len v := by
  simp only [set_bits, List.range_succ, List.reverse_append, List.reverse_cons,
    List.reverse_nil, List.nil_append, List.cons_append, List.foldl_cons]

theorem set_bits_length (o v : Nat) :
    ∀ (len : Nat) (st : List Bool), (set_bits st o len v).length = st.length := by
  intro len
  induction len with
  | zero => intro st; rfl
  | succ len ih => intro st; rw [set_bits_succ, ih, List.length_set]

theorem set_bits_getD_low (o v j : Nat) (d : Bool) :
    ∀ (len : Nat) (st : List Bool), j < o →
      (set_bits st o len v).getD j d = st.getD j d := by
  intro len
  induction len with
  | zero => intro st _; rfl
  | succ len ih => intro st hj; rw [set_bits_succ, ih _ hj, getD_set_other _ _ (by omega)]

theorem set_bits_getD_high (o v j : Nat) (d : Bool) :
    ∀ (len : Nat) (st : List Bool), o + len ≤ j →
      (set_bits st o len v).getD j d = st.getD j d := by
  intro len
  induction len with
  | zero => intro st _; rfl
  | succ len ih =>
    intro st hj
    rw [set_bits_succ, ih _ (by omega), getD_set_other _ _ (by omega)]

theorem set_bits_getD_mid (o v j : Nat) (d : Bool) :
    ∀ (len : Nat) (st : List Bool), o ≤ j → j < o + len → j < st.length →
      (set_bits st o len v).getD j d = (((v >>> (j - o)) &&& 1) != 0) := by
  intro len
  induction len with
  | zero => intro st _ h2 _; omega
  | succ len ih =>
    intro st h1 h2 h3
    by_cases hj : j = o + len
    · rw [set_bits_succ, set_bits_getD_high o v j d len _ (by omega)]
      subst hj
      rw [getD_set_self _ _ h3, Nat.add_sub_cancel_left]
    · rw [set_bits_succ]
      exact ih _ h1 (by omega) (by rw [List.length_set]; exact h3)

theorem initRegister_length (numBits : Nat) (sbox : SboxType) (t r_f r_p : Nat) :
    (initRegister numBits sbox t r_f r_p).length = 80 := by
  simp only [initRegister]
  rw [set_bits_length, set_bits_length, set_bits_length, set_bits_length, set_bits_length,
    set_bits_length, List.length_replicate]

/-- Claim C9: whatever the four public constructor parameters are, the 2-bit
field-kind slot of the construction-time register is the encoding of the
PrimeOrder tag (value 1), never the encoding of the Binary tag (value 0), and
the 12-bit slot at offset 6 is the encoding of F::NUM_BITS of the field type
parameter. -/
theorem c9_constructor_encoding (numBits : Nat) (sbox : SboxType) (t r_f r_p : Nat) :
    ((initRegister numBits sbox t r_f r_p).getD 0 false =
        (((FieldType.PrimeOrder.tag >>> 0) &&& 1) != 0) ∧
      (initRegister numBits sbox t r_f r_p).getD 1 false =
        (((FieldType.PrimeOrder.tag >>> 1) &&& 1) != 0)) ∧
    (∀ i, i < 12 → (initRegister numBits sbox t r_f r_p).getD (6 + i) false =
      (((numBits >>> i) &&& 1) != 0)) ∧
    ((initRegister numBits sbox t r_f r_p).getD 0 false,
        (initRegister numBits sbox t r_f r_p).getD 1 false) ≠
      ((((FieldType.Binary.tag >>> 0) &&& 1) != 0),
        (((FieldType.Binary.tag >>> 1) &&& 1) != 0)) := by
  have h0 : (initRegister numBits sbox t r_f r_p).getD 0 false =
      (((FieldType.PrimeOrder.tag >>> 0) &&& 1) != 0) := by
    simp only [initRegister]
    rw [set_bits_getD_low 40 r_p 0 false 10 _ (by omega),
      set_bits_getD_low 30 r_f 0 false 10 _ (by omega),
      set_bits_getD_low 18 t 0 false 12 _ (by omega),
      set_bits_getD_low 6 numBits 0 false 12 _ (by omega),
      set_bits_getD_low 2 sbox.tag 0 false 4 _ (by omega),
      set_bits_getD_mid 0 FieldType.PrimeOrder.tag 0 false 2 _ (by omega) (by omega)
        (by simp [List.length_replicate])]
  have h1 : (initRegister numBits sbox t r_f r_p).getD 1 false =
      (((FieldType.PrimeOrder.tag >>> 1) &&& 1) != 0) := by
    simp only [initRegister]
    rw [set_bits_getD_low 40 r_p 1 false 10 _ (by omega),
      set_bits_getD_low 30 r_f 1 false 10 _ (by omega),
      set_bits_getD_low 18 t 1 false 12 _ (by omega),
      set_bits_getD_low 6 numBits 1 false 12 _ (by omega),
      set_bits_getD_low 2 sbox.tag 1 false 4 _ (by omega),
      set_bits_getD_mid 0 FieldType.PrimeOrder.tag 1 false 2 _ (by omega) (by omega)
        (by simp [List.length_replicate])]
  refine ⟨⟨h0, h1⟩, ?_, ?_⟩
  · intro i hi
    have harith : 6 + i - 6 = i := by omega
    simp only [initRegister]
    rw [set_bits_getD_low 40 r_p (6 + i) false 10 _ (by omega),
      set_bits_getD_low 30 r_f (6 + i) false 10 _ (by omega),
      set_bits_getD_low 18 t (6 + i) false 12 _ (by omega),
      set_bits_getD_mid 6 numBits (6 + i) false 12 _ (by omega) (by omega)
        (by rw [set_bits_length, set_bits_length, List.length_replicate]; show 6 + i < 80; omega),
      harith]
  · rw [h0, h1]
    decide

/-- Witness for C9 at the test parameters, reading bit 3 of the NUM_BITS
slot. -/
theorem c9_constructor_encoding_witness :
    3 < 12 ∧ (initRegister 255 SboxType.Pow 3 8 56).getD (6 + 3) false =
      (((255 >>> 3) &&& 1) != 0) :=
  ⟨by decide, (c9_constructor_encoding 255 SboxType.Pow 3 8 56).2.1 3 (by decide)⟩

/-! The warm-up phase, instrumented with the raw bits each refill makes
available (and which the warm-up then discards by resetting the cursor). -/

/-- Trace of n warm-up rounds: the 8 fresh bits each refill places at the
consumption window (in consumption order), all discarded by the cursor reset,
together with the final generator state. -/
def warmupTrace : Nat → Grain → List Bool × Grain
  | 0, g => ([], g)
  | n + 1, g =>
    ((List.range 8).map (fun i => (load_next_8_bits g).state.getD (72 + i) false) ++
        (warmupTrace n { load_next_8_bits g with next_bit := STATE }).1,
      (warmupTrace n { load_next_8_bits g with next_bit := STATE }).2)

theorem warmupTrace_snd : ∀ (n : Nat) (g : Grain), (warmupTrace n g).2 = warmup n g := by
  intro n
  induction n with
  | zero => intro g; rfl
  | succ n ih => intro g; simp only [warmupTrace, warmup]; exact ih _

theorem warmupTrace_length : ∀ (n : Nat) (g : Grain), (warmupTrace n g).1.length = 8 * n := by
  intro n
  induction n with
  | zero => intro g; rfl
  | succ n ih =>
    intro g
    simp only [warmupTrace, List.length_append, List.length_map, List.length_range, ih]
    omega

theorem load_next_bit (g : Grain) : (load_next_8_bits g).next_bit = g.next_bit - 8 := rfl

theorem warmup_next_bit : ∀ (n : Nat) (g : Grain), g.next_bit = 80 →
    (warmup n g).next_bit = 80 := by
  intro n
  induction n with
  | zero => intro g h; exact h
  | succ n ih => intro g _; exact ih _ rfl

/-- Claim C6: construction performs exactly 20 refill operations whose
8 · 20 = 160 fresh raw bits are all discarded by resetting the cursor to 80
after each refill; the constructed generator has cursor 80, so its very first
raw-bit read performs a fresh refill and returns that refill's first fresh
bit. -/
theorem c6_warmup_discard (numBits : Nat) (sbox : SboxType) (t r_f r_p : Nat) :
    (warmupTrace 20 (seedGrain numBits sbox t r_f r_p)).2 =
      Grain.new numBits sbox t r_f r_p ∧
    (warmupTrace 20 (seedGrain numBits sbox t r_f r_p)).1.length = 160 ∧
    (Grain.new numBits sbox t r_f r_p).next_bit = 80 ∧
    (get_next_bit (Grain.new numBits sbox t r_f r_p)).2.state =
      (load_next_8_bits (Grain.new numBits sbox t r_f r_p)).state ∧
    (get_next_bit (Grain.new numBits sbox t r_f r_p)).1 =
      (load_next_8_bits (Grain.new numBits sbox t r_f r_p)).state.getD 72 false := by
  have hnb : (Grain.new numBits sbox t r_f r_p).next_bit = 80 :=
    warmup_next_bit 20 _ rfl
  have hload : (load_next_8_bits (Grain.new numBits sbox t r_f r_p)).next_bit = 72 := by
    rw [load_next_bit, hnb]
  refine ⟨by rw [warmupTrace_snd]; rfl, by simp [warmupTrace_length], hnb, ?_, ?_⟩
  · simp only [get_next_bit, hnb]
    rfl
  · simp only [get_next_bit, hnb, if_true]
    rw [hload]

/-! State invariants and the query interface. -/

/-- The C7 state predicate: the register holds exactly 80 bits and the cursor
lies in [0, 80]. -/
abbrev SInv (g : Grain) : Prop := g.state.length = 80 ∧ g.next_bit ≤ 80

/-- The C10 state predicate on user-visible states: the register holds exactly
80 bits and the cursor lies in [72, 80]. -/
abbrev CursorWF (g : Grain) : Prop :=
  g.state.length = 80 ∧ 72 ≤ g.next_bit ∧ g.next_bit ≤ 80

theorem load_length (g : Grain) : (load_next_8_bits g).state.length = g.state.length := by
  have h2 : List.range 8 = [0, 1, 2, 3, 4, 5, 6, 7] := rfl
  simp only [load_next_8_bits, h2, List.foldl]
  simp [List.length_set, rotRight, List.length_rotate]

theorem sinv_load {g : Grain} (h : SInv g) : SInv (load_next_8_bits g) :=
  ⟨by rw [load_length]; exact h.1,
   by have := h.2; rw [load_next_bit]; omega⟩

theorem get_next_bit_snd_pos {g : Grain} (hb : g.next_bit = STATE) :
    (get_next_bit g).2 =
      { load_next_8_bits g with next_bit := (load_next_8_bits g).next_bit + 1 } := by
  simp only [get_next_bit, if_pos hb]

theorem get_next_bit_snd_neg {g : Grain} (hb : ¬ g.next_bit = STATE) :
    (get_next_bit g).2 = { g with next_bit := g.next_bit + 1 } := by
  simp only [get_next_bit, if_neg hb]

theorem sinv_get {g : Grain} (h : SInv g) : SInv (get_next_bit g).2 := by
  obtain ⟨hlen, hnb⟩ := h
  by_cases hb : g.next_bit = STATE
  · have hb80 : g.next_bit = 80 := hb
    rw [get_next_bit_snd_pos hb]
    refine ⟨?_, ?_⟩
    · show (load_next_8_bits g).state.length = 80
      rw [load_length]; exact hlen
    · show (load_next_8_bits g).next_bit + 1 ≤ 80
      rw [load_next_bit]; omega
  · have hb80 : g.next_bit ≠ 80 := hb
    rw [get_next_bit_snd_neg hb]
    refine ⟨hlen, ?_⟩
    show g.next_bit + 1 ≤ 80
    omega

theorem cursorwf_get {g : Grain} (h : CursorWF g) : CursorWF (get_next_bit g).2 := by
  obtain ⟨hlen, h72, h80⟩ := h
  by_cases hb : g.next_bit = STATE
  · have hb80 : g.next_bit = 80 := hb
    rw [get_next_bit_snd_pos hb]
    refine ⟨?_, ?_, ?_⟩
    · show (load_next_8_bits g).state.length = 80
      rw [load_length]; exact hlen
    · show 72 ≤ (load_next_8_bits g).next_bit + 1
      rw [load_next_bit]; omega
    · show (load_next_8_bits g).next_bit + 1 ≤ 80
      rw [load_next_bit]; omega
  · have hb80 : g.next_bit ≠ 80 := hb
    rw [get_next_bit_snd_neg hb]
    refine ⟨hlen, ?_, ?_⟩
    · show 72 ≤ g.next_bit + 1
      omega
    · show g.next_bit + 1 ≤ 80
      omega

/-- Any predicate preserved by get_next_bit is preserved by producing one
derived bit. -/
theorem pres_nextDerived (P : Grain → Prop) (hP : ∀ g, P g → P (get_next_bit g).2) :
    ∀ (fuel : Nat) (g : Grain) (b : Bool) (g1 : Grain),
      nextDerived fuel g = some (b, g1) → P g → P g1 := by
  intro fuel
  induction fuel with
  | zero => intro g b g1 h; simp [nextDerived] at h
  | succ fuel ih =>
    intro g b g1 h hg
    simp only [nextDerived] at h
    by_cases hc : (get_next_bit g).1
    · rw [if_pos hc] at h
      have h2 : (get_next_bit (get_next_bit g).2).2 = g1 :=
        congrArg Prod.snd (Option.some.inj h)
      rw [← h2]
      exact hP _ (hP _ hg)
    · rw [if_neg hc] at h
      exact ih _ b g1 h (hP _ (hP _ hg))

theorem pres_takeBits (P : Grain → Prop) (hP : ∀ g, P g → P (get_next_bit g).2)
    (fuel : Nat) :
    ∀ (n : Nat) (g : Grain) (bits : List Bool) (g1 : Grain),
      takeBits fuel n g = some (bits, g1) → P g → P g1 := by
  intro n
  induction n with
  | zero =>
    intro g bits g1 h hg
    simp only [takeBits, Option.some.injEq, Prod.mk.injEq] at h
    rw [← h.2]
    exact hg
  | succ n ih =>
    intro g bits g1 h hg
    simp only [takeBits] at h
    split at h
    · exact absurd h (by simp)
    · rename_i b gb hnd
      split at h
      · exact absurd h (by simp)
      · rename_i bs g2 htb
        simp only [Option.some.injEq, Prod.mk.injEq] at h
        rw [← h.2]
        exact ih gb bs g2 htb (pres_nextDerived P hP fuel g b gb hnd hg)

theorem pres_nfe (P : Grain → Prop) (hP : ∀ g, P g → P (get_next_bit g).2)
    (F : FieldSpec) (fuel : Nat) :
    ∀ (a : Nat) (g : Grain) (f : Nat) (g1 : Grain),
      next_field_element F fuel a g = some (f, g1) → P g → P g1 := by
  intro a
  induction a with
  | zero => intro g f g1 h; simp [next_field_element] at h
  | succ a ih =>
    intro g f g1 h hg
    simp only [next_field_element] at h
    split at h
    · exact absurd h (by simp)
    · rename_i bits gb htb
      split at h
      · rename_i f0 hfr
        simp only [Option.some.injEq, Prod.mk.injEq] at h
        rw [← h.2]
        exact pres_takeBits P hP fuel F.numBits g bits gb htb hg
      · exact ih gb f g1 h (pres_takeBits P hP fuel F.numBits g bits gb htb hg)

/-- The repertoire of operations a caller can issue after construction. -/
inductive UserQuery where
  | rawBit : UserQuery
  | derivedBit : Nat → UserQuery
  | fieldElem : FieldSpec → Nat → Nat → UserQuery

/-- The state transition of one user query (fuel exhaustion leaves the state
where the model stopped tracking it, which is itself a reachable state). -/
def applyQuery (g : Grain) : UserQuery → Grain
  | .rawBit => (get_next_bit g).2
  | .derivedBit fuel =>
    match nextDerived fuel g with
    | some p => p.2
    | none => g
  | .fieldElem F fuel a =>
    match next_field_element F fuel a g with
    | some p => p.2
    | none => g

def runQueries (qs : List UserQuery) (g : Grain) : Grain :=
  qs.foldl applyQuery g

theorem pres_applyQuery (P : Grain → Prop) (hP : ∀ g, P g → P (get_next_bit g).2)
    (g : Grain) (q : UserQuery) (hg : P g) : P (applyQuery g q) := by
  cases q with
  | rawBit => exact hP g hg
  | derivedBit fuel =>
    simp only [applyQuery]
    split
    · rename_i p hp
      exact pres_nextDerived P hP fuel g p.1 p.2 (by rw [hp]) hg
    · exact hg
  | fieldElem F fuel a =>
    simp only [applyQuery]
    split
    · rename_i p hp
      exact pres_nfe P hP F fuel a g p.1 p.2 (by rw [hp]) hg
    · exact hg

theorem pres_runQueries (P : Grain → Prop) (hP : ∀ g, P g → P (get_next_bit g).2) :
    ∀ (qs : List UserQuery) (g : Grain), P g → P (runQueries qs g) := by
  intro qs
  induction qs with
  | nil => intro g hg; exact hg
  | cons q qs ih =>
    intro g hg
    simp only [runQueries, List.foldl_cons]
    exact ih _ (pres_applyQuery P hP g q hg)

theorem sinv_warmup : ∀ (n : Nat) (g : Grain), SInv g → SInv (warmup n g) := by
  intro n
  induction n with
  | zero => intro g hg; exact hg
  | succ n ih =>
    intro g hg
    refine ih _ ⟨?_, ?_⟩
    · show (load_next_8_bits g).state.length = 80
      rw [load_length]; exact hg.1
    · show (STATE : Nat) ≤ 80
      exact Nat.le.refl

theorem seedGrain_state (numBits : Nat) (sbox : SboxType) (t r_f r_p : Nat) :
    (seedGrain numBits sbox t r_f r_p).state = initRegister numBits sbox t r_f r_p := by
  simp only [seedGrain]

theorem seedGrain_next_bit (numBits : Nat) (sbox : SboxType) (t r_f r_p : Nat) :
    (seedGrain numBits sbox t r_f r_p).next_bit = 80 := by
  simp only [seedGrain]

theorem sinv_new (numBits : Nat) (sbox : SboxType) (t r_f r_p : Nat) :
    SInv (Grain.new numBits sbox t r_f r_p) := by
  have h1 : SInv (seedGrain numBits sbox t r_f r_p) := by
    refine ⟨?_, ?_⟩
    · rw [seedGrain_state]
      exact initRegister_length numBits sbox t r_f r_p
    · rw [seedGrain_next_bit]
  exact sinv_warmup 20 (seedGrain numBits sbox t r_f r_p) h1

/-- Claim C7: the predicate "the register holds exactly 80 bits and the cursor
lies in [0, 80]" holds after construction (warm-up included) and is preserved
by every operation: refill, raw-bit read, derived-bit read, field-element
sampling, and any sequence of queries issued after construction. -/
theorem c7_register_cursor_invariant (numBits : Nat) (sbox : SboxType) (t r_f r_p : Nat) :
    SInv (Grain.new numBits sbox t r_f r_p) ∧
    (∀ g, SInv g → SInv (load_next_8_bits g)) ∧
    (∀ g, SInv g → SInv (get_next_bit g).2) ∧
    (∀ fuel g b g1, nextDerived fuel g = some (b, g1) → SInv g → SInv g1) ∧
    (∀ F fuel a g f g1, next_field_element F fuel a g = some (f, g1) → SInv g → SInv g1) ∧
    (∀ qs, SInv (runQueries qs (Grain.new numBits sbox t r_f r_p))) :=
  ⟨sinv_new numBits sbox t r_f r_p,
   fun _ h => sinv_load h,
   fun _ h => sinv_get h,
   fun fuel g b g1 h hg => pres_nextDerived SInv (fun _ h => sinv_get h) fuel g b g1 h hg,
   fun F fuel a g f g1 h hg => pres_nfe SInv (fun _ h => sinv_get h) F fuel a g f g1 h hg,
   fun qs => pres_runQueries SInv (fun _ h => sinv_get h) qs _
     (sinv_new numBits sbox t r_f r_p)⟩

/-- Witness for C7: the invariant-preservation conjunct applied at the
concrete seed state of the test parameters. -/
theorem c7_register_cursor_invariant_witness :
    SInv (seedGrain 255 SboxType.Pow 3 8 56) ∧
    SInv (load_next_8_bits (seedGrain 255 SboxType.Pow 3 8 56)) :=
  ⟨by exact ⟨by decide, by decide⟩,
   (c7_register_cursor_invariant 255 SboxType.Pow 3 8 56).2.1 _ ⟨by decide, by decide⟩⟩

/-- Observable result of one user query. -/
inductive QOut where
  | raw : Bool → QOut
  | derived : Option Bool → QOut
  | field : Option Nat → QOut
deriving DecidableEq

def applyQueryOut (g : Grain) : UserQuery → QOut × Grain
  | .rawBit => (QOut.raw (get_next_bit g).1, (get_next_bit g).2)
  | .derivedBit fuel =>
    match nextDerived fuel g with
    | some p => (QOut.derived (some p.1), p.2)
    | none => (QOut.derived none, g)
  | .fieldElem F fuel a =>
    match next_field_element F fuel a g with
    | some p => (QOut.field (some p.1), p.2)
    | none => (QOut.field none, g)

def runQueriesOut : List UserQuery → Grain → List QOut × Grain
  | [], g => ([], g)
  | q :: qs, g =>
    ((applyQueryOut g q).1 :: (runQueriesOut qs (applyQueryOut g q).2).1,
      (runQueriesOut qs (applyQueryOut g q).2).2)

/-- Claim C8: two generator instances constructed from identical seed
parameters (same S-box kind, t, r_f, r_p and same field type, i.e. same
F::NUM_BITS) give identical results to any identical sequence of raw-bit,
derived-bit and field-element queries: the output stream is a pure
deterministic function of the seed. -/
theorem c8_determinism (numBits : Nat) (sbox : SboxType) (t r_f r_p : Nat)
    (g1 g2 : Grain) (h1 : g1 = Grain.new numBits sbox t r_f r_p)
    (h2 : g2 = Grain.new numBits sbox t r_f r_p) (qs : List UserQuery) :
    runQueriesOut qs g1 = runQueriesOut qs g2 := by
  subst h1
  subst h2
  rfl

/-- Witness for C8 with the test parameters and one raw-bit query. -/
theorem c8_determinism_witness :
    runQueriesOut [UserQuery.rawBit] (Grain.new 255 SboxType.Pow 3 8 56) =
      runQueriesOut [UserQuery.rawBit] (Grain.new 255 SboxType.Pow 3 8 56) :=
  c8_determinism 255 SboxType.Pow 3 8 56 _ _ rfl rfl [UserQuery.rawBit]

/-! Checked variants of the register operations: they return none exactly when
the corresponding Rust code would panic (bit indexing out of bounds, or the
usize subtraction next_bit -= 8 underflowing). -/

def get_next_bit_chk (g : Grain) : Option (Bool × Grain) :=
  if g.next_bit = STATE then
    if 69 < g.state.length ∧ 79 < g.state.length ∧ 8 ≤ g.next_bit then
      if (load_next_8_bits g).next_bit < (load_next_8_bits g).state.length then
        some (get_next_bit g)
      else none
    else none
  else
    if g.next_bit < g.state.length then some (get_next_bit g) else none

theorem get_next_bit_chk_eq {g : Grain} (h : CursorWF g) :
    get_next_bit_chk g = some (get_next_bit g) := by
  obtain ⟨hlen, h72, h80⟩ := h
  by_cases hb : g.next_bit = STATE
  · have hb80 : g.next_bit = 80 := hb
    rw [get_next_bit_chk, if_pos hb,
      if_pos ⟨by rw [hlen]; omega, by rw [hlen]; omega, by omega⟩,
      if_pos (by rw [load_next_bit, load_length, hlen, hb80]; omega)]
  · have hb80 : g.next_bit ≠ 80 := hb
    rw [get_next_bit_chk, if_neg hb, if_pos (by rw [hlen]; omega)]

theorem get_next_bit_no_refill {g : Grain} (hb : g.next_bit ≠ STATE) :
    (get_next_bit g).2.state = g.state := by
  simp [get_next_bit, hb]

theorem cursorwf_new (numBits : Nat) (sbox : SboxType) (t r_f r_p : Nat) :
    CursorWF (Grain.new numBits sbox t r_f r_p) := by
  have hnb : (Grain.new numBits sbox t r_f r_p).next_bit = 80 :=
    warmup_next_bit 20 _ rfl
  exact ⟨(sinv_new numBits sbox t r_f r_p).1, by rw [hnb]; omega, by rw [hnb]⟩

/-- Claim C10: on every state reachable through construction followed by any
sequence of user queries, the cursor lies in [72, 80]; the checked raw-bit
read (which returns none precisely when the Rust code would panic on an
out-of-range bit index or on underflow of the cursor decrement) agrees with
the unchecked one, so no panicking branch is reachable; and whenever the
cursor is not exactly 80, a raw-bit read performs no refill, so
load_next_8_bits runs only at cursor 80. -/
theorem c10_cursor_safety (numBits : Nat) (sbox : SboxType) (t r_f r_p : Nat)
    (qs : List UserQuery) :
    72 ≤ (runQueries qs (Grain.new numBits sbox t r_f r_p)).next_bit ∧
    (runQueries qs (Grain.new numBits sbox t r_f r_p)).next_bit ≤ 80 ∧
    get_next_bit_chk (runQueries qs (Grain.new numBits sbox t r_f r_p)) =
      some (get_next_bit (runQueries qs (Grain.new numBits sbox t r_f r_p))) ∧
    ((runQueries qs (Grain.new numBits sbox t r_f r_p)).next_bit ≠ 80 →
      (get_next_bit (runQueries qs (Grain.new numBits sbox t r_f r_p))).2.state =
        (runQueries qs (Grain.new numBits sbox t r_f r_p)).state) := by
  have hwf : CursorWF (runQueries qs (Grain.new numBits sbox t r_f r_p)) :=
    pres_runQueries CursorWF (fun _ h => cursorwf_get h) qs _
      (cursorwf_new numBits sbox t r_f r_p)
  exact ⟨hwf.2.1, hwf.2.2, get_next_bit_chk_eq hwf,
    fun hne => get_next_bit_no_refill hne⟩

/-- Witness for C10: after construction with the test parameters and one
raw-bit read the cursor is 73, and a further read indeed leaves the register
untouched. -/
theorem c10_cursor_safety_witness :
    (runQueries [UserQuery.rawBit] (Grain.new 255 SboxType.Pow 3 8 56)).next_bit ≠ 80 ∧
    (get_next_bit (runQueries [UserQuery.rawBit] (Grain.new 255 SboxType.Pow 3 8 56))).2.state =
      (runQueries [UserQuery.rawBit] (Grain.new 255 SboxType.Pow 3 8 56)).state :=
  ⟨by decide,
   (c10_cursor_safety 255 SboxType.Pow 3 8 56 [UserQuery.rawBit]).2.2.2 (by decide)⟩

end GrainLFSR
